import Mathlib

/-!
Verification of the task-variation core of `ctwrap` (`ctwrap/simulation.py`)
against its natural-language specification.

The development shallowly embeds the Python code:

* `PyVal` models the nested configuration values (scalars, lists, dicts with
  string keys); Python dicts are modelled as insertion-ordered association
  lists with in-place update on key collision, exactly the observable
  semantics of `d[k] = v`.
* `replace_entry`, `SimulationHandler.configuration`, `tasksOf` and
  `Simulation._save` are value-level translations of the functions of the
  same names in `simulation.py` (errors become `Except PyErr`).
* A small heap model (`Heap`, `store`, `replaceEntryH`, `configurationH`)
  makes object identity explicit in order to settle the aliasing claim about
  `deepcopy`.
* A trace model of `worker` / `run_parallel` records the `_save` and
  `_save_metadata` calls each worker performs together with the lock state,
  in order to settle the concurrency claims.
-/

/-- Python exception kinds raised by the translated code paths. -/
inductive PyErr where
  | keyError (k : String)
  | typeError
  | indexError
  | assertionError (msg : String)
  | nameError
  | runtimeError (msg : String)
  | valueError (msg : String)
deriving DecidableEq, Repr

/-- Nested Python configuration values: scalars, sequences and
string-keyed mappings, as used by `defaults` / `variation` in ctwrap. -/
inductive PyVal where
  | pyInt (n : Int)
  | pyBool (b : Bool)
  | pyStr (s : String)
  | pyList (elems : List PyVal)
  | pyDict (items : List (String × PyVal))

mutual

/-- Decidable equality of values (hand-rolled for the nested inductive). -/
def PyVal.decEq : (a b : PyVal) → Decidable (a = b)
  | PyVal.pyInt n, PyVal.pyInt m =>
    if h : n = m then isTrue (by rw [h]) else isFalse (fun he => h (by cases he; rfl))
  | PyVal.pyBool x, PyVal.pyBool y =>
    if h : x = y then isTrue (by rw [h]) else isFalse (fun he => h (by cases he; rfl))
  | PyVal.pyStr x, PyVal.pyStr y =>
    if h : x = y then isTrue (by rw [h]) else isFalse (fun he => h (by cases he; rfl))
  | PyVal.pyList es, PyVal.pyList fs =>
    match PyVal.decEqList es fs with
    | isTrue h => isTrue (by rw [h])
    | isFalse h => isFalse (fun he => h (by cases he; rfl))
  | PyVal.pyDict ds, PyVal.pyDict es =>
    match PyVal.decEqItems ds es with
    | isTrue h => isTrue (by rw [h])
    | isFalse h => isFalse (fun he => h (by cases he; rfl))
  | PyVal.pyInt _, PyVal.pyBool _ => isFalse nofun
  | PyVal.pyInt _, PyVal.pyStr _ => isFalse nofun
  | PyVal.pyInt _, PyVal.pyList _ => isFalse nofun
  | PyVal.pyInt _, PyVal.pyDict _ => isFalse nofun
  | PyVal.pyBool _, PyVal.pyInt _ => isFalse nofun
  | PyVal.pyBool _, PyVal.pyStr _ => isFalse nofun
  | PyVal.pyBool _, PyVal.pyList _ => isFalse nofun
  | PyVal.pyBool _, PyVal.pyDict _ => isFalse nofun
  | PyVal.pyStr _, PyVal.pyInt _ => isFalse nofun
  | PyVal.pyStr _, PyVal.pyBool _ => isFalse nofun
  | PyVal.pyStr _, PyVal.pyList _ => isFalse nofun
  | PyVal.pyStr _, PyVal.pyDict _ => isFalse nofun
  | PyVal.pyList _, PyVal.pyInt _ => isFalse nofun
  | PyVal.pyList _, PyVal.pyBool _ => isFalse nofun
  | PyVal.pyList _, PyVal.pyStr _ => isFalse nofun
  | PyVal.pyList _, PyVal.pyDict _ => isFalse nofun
  | PyVal.pyDict _, PyVal.pyInt _ => isFalse nofun
  | PyVal.pyDict _, PyVal.pyBool _ => isFalse nofun
  | PyVal.pyDict _, PyVal.pyStr _ => isFalse nofun
  | PyVal.pyDict _, PyVal.pyList _ => isFalse nofun

/-- Decidable equality of value lists. -/
def PyVal.decEqList : (a b : List PyVal) → Decidable (a = b)
  | [], [] => isTrue rfl
  | [], _ :: _ => isFalse nofun
  | _ :: _, [] => isFalse nofun
  | x :: xs, y :: ys =>
    match PyVal.decEq x y with
    | isFalse h => isFalse (fun he => h (by cases he; rfl))
    | isTrue h1 =>
      match PyVal.decEqList xs ys with
      | isTrue h2 => isTrue (by rw [h1, h2])
      | isFalse h2 => isFalse (fun he => h2 (by cases he; rfl))

/-- Decidable equality of key/value item lists. -/
def PyVal.decEqItems : (a b : List (String × PyVal)) → Decidable (a = b)
  | [], [] => isTrue rfl
  | [], _ :: _ => isFalse nofun
  | _ :: _, [] => isFalse nofun
  | (k, x) :: xs, (l, y) :: ys =>
    if hk : k = l then
      match PyVal.decEq x y with
      | isFalse h => isFalse (fun he => h (by cases he; rfl))
      | isTrue h1 =>
        match PyVal.decEqItems xs ys with
        | isTrue h2 => isTrue (by rw [hk, h1, h2])
        | isFalse h2 => isFalse (fun he => h2 (by cases he; rfl))
    else isFalse (fun he => hk (by cases he; rfl))

end

instance : DecidableEq PyVal := PyVal.decEq

instance {ε α : Type} [DecidableEq ε] [DecidableEq α] : DecidableEq (Except ε α) := by
  intro a b
  cases a <;> cases b
  case error.error e f => exact if h : e = f then isTrue (by rw [h]) else isFalse (fun he => h (by cases he; rfl))
  case error.ok _ _ => exact isFalse nofun
  case ok.error _ _ => exact isFalse nofun
  case ok.ok x y => exact if h : x = y then isTrue (by rw [h]) else isFalse (fun he => h (by cases he; rfl))

mutual

/-- Python `repr()` of a value (integers, booleans, quoted strings,
bracketed sequences and brace-delimited mappings). -/
def pyRepr : PyVal → String
  | PyVal.pyInt n => toString n
  | PyVal.pyBool b => if b then "True" else "False"
  | PyVal.pyStr s => "'" ++ s ++ "'"
  | PyVal.pyList es => "[" ++ String.intercalate ", " (pyReprList es) ++ "]"
  | PyVal.pyDict its => "\x7b" ++ String.intercalate ", " (pyReprItems its) ++ "\x7d"

/-- `repr()` of each element of a sequence. -/
def pyReprList : List PyVal → List String
  | [] => []
  | v :: vs => pyRepr v :: pyReprList vs

/-- `repr()` of each key/value pair of a mapping. -/
def pyReprItems : List (String × PyVal) → List String
  | [] => []
  | (k, v) :: its => ("'" ++ k ++ "': " ++ pyRepr v) :: pyReprItems its

end

/-- Python `str()` of a value, as used by `'...'.format(value)`:
like `repr()` except that a top-level string is unquoted. -/
def pyToStr : PyVal → String
  | PyVal.pyStr s => s
  | v => pyRepr v

/-- Python dict assignment `d[k] = v` on an insertion-ordered association
list: replaces the value of an existing key in place, else appends. -/
def dictInsert {α : Type} : List (String × α) → String → α → List (String × α)
  | [], k, v => [(k, v)]
  | p :: ps, k, v => if p.1 = k then (p.1, v) :: ps else p :: dictInsert ps k v

/-- Python dict lookup `d.get(k)`: value of the first (hence only) matching
key. -/
def dictGet {α : Type} : List (String × α) → String → Option α
  | [], _ => none
  | p :: ps, k => if p.1 = k then some p.2 else dictGet ps k

/-- Keys of a dict, in insertion order. -/
def dictKeys {α : Type} (d : List (String × α)) : List String :=
  d.map Prod.fst

/-- Task identifier `'{}_{}'.format(entry, value)` built by
`SimulationHandler.tasks` (simulation.py line 406). -/
def taskId (entry : String) (v : PyVal) : String :=
  entry ++ "_" ++ pyToStr v

/-- `SimulationHandler.tasks` (simulation.py lines 402-406): the dict
comprehension `{'{}_{}'.format(e, v): v for v in self._values}`, evaluated
left to right with Python dict-assignment semantics on key collision. -/
def tasksOf (entry : String) (values : List PyVal) : List (String × PyVal) :=
  values.foldl (fun d v => dictInsert d (taskId entry v) v) []

/-- State of a `SimulationHandler` relevant to task derivation and
configuration resolution: `self._defaults`, `self._entry`, `self._values`
(simulation.py lines 193, 206-207). -/
structure SimulationHandler where
  defaults : PyVal
  entry : String
  values : List PyVal
deriving DecidableEq

/-- `SimulationHandler.__init__` (simulation.py lines 177-223): asserts that
`variation` is a dict containing keys `entry` and `values`, then stores the
three fields.  It performs no validation of the `entry` dot-path against
`defaults` (the `tasks` computation at line 216 only formats values).  The
final `typeError` arm covers a non-string `entry` or non-list `values`,
which the Python code would only reject later at their first use. -/
def SimulationHandler.init (defaults : PyVal) (variation : PyVal) :
    Except PyErr SimulationHandler := do
  let vd ← match variation with
    | PyVal.pyDict d => Except.ok d
    | _ => Except.error (PyErr.assertionError "variation needs to be a dictionary")
  let e ← match dictGet vd "entry" with
    | some v => Except.ok v
    | none => Except.error (PyErr.assertionError "missing entry `entry` in `variation`")
  let vs ← match dictGet vd "values" with
    | some v => Except.ok v
    | none => Except.error (PyErr.assertionError "missing entry `values` in `variation`")
  match e, vs with
  | PyVal.pyStr s, PyVal.pyList l => Except.ok ⟨defaults, s, l⟩
  | _, _ => Except.error PyErr.typeError

/-- Helper for `pySplit`: walks the remaining characters, accumulating the
current (reversed) field. -/
def pySplitAux (sep : Char) : List Char → List Char → List String
  | [], acc => [String.mk acc.reverse]
  | c :: cs, acc =>
    if c = sep then String.mk acc.reverse :: pySplitAux sep cs []
    else pySplitAux sep cs (c :: acc)

/-- Python `s.split(sep)` for a single-character separator, as used by
`self._entry.split('.')` (simulation.py line 383): splits at every
occurrence, keeping empty fields; the result is never the empty list. -/
def pySplit (s : String) (sep : Char) : List String :=
  pySplitAux sep s.toList []

/-- Python `nested[key]` for a string key: dict lookup raising `KeyError`
for a missing key and `TypeError` when `nested` is not a mapping. -/
def getItem : PyVal → String → Except PyErr PyVal
  | PyVal.pyDict d, k =>
    match dictGet d k with
    | some v => Except.ok v
    | none => Except.error (PyErr.keyError k)
  | _, _ => Except.error PyErr.typeError

/-- Python `nested[key] = v` for a string key. -/
def setItem : PyVal → String → PyVal → Except PyErr PyVal
  | PyVal.pyDict d, k, v => Except.ok (PyVal.pyDict (dictInsert d k v))
  | _, _, _ => Except.error PyErr.typeError

/-- `replace_entry` (simulation.py lines 370-380), the recursive descent of
`SimulationHandler.configuration`, as a pure function on values:

    sub = nested[key_list[0]]
    if len(key_list) == 1:
        if isinstance(sub, list): sub[0] = value
        else: sub = value
    else:
        sub = replace_entry(sub, key_list[1:], value)
    nested[key_list[0]] = sub
    return nested

`sub[0] = value` on an empty Python list raises `IndexError`, as does
`key_list[0]` on an empty key list (unreachable from `configuration`,
since `str.split` never returns an empty list). -/
def replace_entry : PyVal → List String → PyVal → Except PyErr PyVal
  | _, [], _ => Except.error PyErr.indexError
  | nested, k :: rest, value => do
    let sub ← getItem nested k
    let sub' ←
      match rest with
      | [] =>
        match sub with
        | PyVal.pyList [] => Except.error PyErr.indexError
        | PyVal.pyList (_ :: tl) => Except.ok (PyVal.pyList (value :: tl))
        | _ => Except.ok value
      | _ :: _ => replace_entry sub rest value
    setItem nested k sub'

/-- `SimulationHandler.configuration` (simulation.py lines 353-385),
line by line:

    value = self.tasks.get(task, None)
    assert task is not None, 'invalid value'   # task is a string: passes
    out = deepcopy(self._defaults)             # value-identical copy
    value = self.tasks[task]                   # KeyError when absent
    entry = self._entry.split('.')
    return replace_entry(out, entry, value)

Note the guard on the second line tests `task`, not the `value` obtained
from `.get` on the first line, so it can never fire for a string task id. -/
def SimulationHandler.configuration (h : SimulationHandler) (task : String) :
    Except PyErr PyVal := do
  let _value := dictGet (tasksOf h.entry h.values) task
  -- assert task is not None, 'invalid value' : `task` is a string, so it passes
  let out := h.defaults
  let value ← match dictGet (tasksOf h.entry h.values) task with
    | some v => Except.ok v
    | none => Except.error (PyErr.keyError task)
  replace_entry out (pySplit h.entry '.') value

/-- Reading a dot-path back out of a nested value by iterated Python
indexing `v[k1][k2]...`; used to state the spec's round-trip properties. -/
def getEntry : PyVal → List String → Except PyErr PyVal
  | v, [] => Except.ok v
  | v, k :: rest => do
    let sub ← getItem v k
    getEntry sub rest

/-- The replacement policy of `replace_entry` at the final key: a nonempty
sequence keeps its tail and has its head overwritten; anything else is
replaced wholesale. -/
def replVal : PyVal → PyVal → PyVal
  | PyVal.pyList (_ :: tl), v => PyVal.pyList (v :: tl)
  | _, v => v

lemma dictGet_dictInsert {α : Type} (d : List (String × α)) (k k' : String) (v : α) :
    dictGet (dictInsert d k v) k' = if k = k' then some v else dictGet d k' := by
  induction d with
  | nil => simp [dictInsert, dictGet]
  | cons p ps ih =>
    by_cases h1 : p.1 = k
    · by_cases h2 : k = k' <;> simp [dictInsert, dictGet, h1, h2]
    · by_cases h2 : p.1 = k' <;> by_cases h3 : k = k' <;>
        simp_all [dictInsert, dictGet, h1, h2]

lemma dictKeys_dictInsert {α : Type} (d : List (String × α)) (k : String) (v : α) :
    dictKeys (dictInsert d k v) =
      if k ∈ dictKeys d then dictKeys d else dictKeys d ++ [k] := by
  induction d with
  | nil => simp [dictInsert, dictKeys]
  | cons p ps ih =>
    by_cases h1 : p.1 = k
    · simp [dictInsert, dictKeys, h1]
    · have : ¬ k = p.1 := fun h => h1 h.symm
      by_cases h2 : k ∈ dictKeys ps <;> simp_all [dictInsert, dictKeys, h1]

lemma nodup_dictKeys_dictInsert {α : Type} {d : List (String × α)}
    (hd : (dictKeys d).Nodup) (k : String) (v : α) :
    (dictKeys (dictInsert d k v)).Nodup := by
  rw [dictKeys_dictInsert]
  split
  · exact hd
  · next h => simp [List.nodup_append, hd, h]

lemma toFinset_dictKeys_dictInsert {α : Type} (d : List (String × α)) (k : String) (v : α) :
    (dictKeys (dictInsert d k v)).toFinset = insert k (dictKeys d).toFinset := by
  rw [dictKeys_dictInsert]
  split
  · next h => exact (Finset.insert_eq_self.mpr (List.mem_toFinset.mpr h)).symm
  · simp [List.toFinset_append, Finset.insert_eq, Finset.union_comm]

lemma tasksOf_fold_keys (entry : String) (vs : List PyVal) :
    ∀ (d : List (String × PyVal)), (dictKeys d).Nodup →
      (dictKeys (vs.foldl (fun d v => dictInsert d (taskId entry v) v) d)).Nodup ∧
      (dictKeys (vs.foldl (fun d v => dictInsert d (taskId entry v) v) d)).toFinset =
        (dictKeys d).toFinset ∪ (vs.map (taskId entry)).toFinset := by
  induction vs with
  | nil => intro d hd; simpa using hd
  | cons v vs ih =>
    intro d hd
    simp only [List.foldl_cons]
    obtain ⟨h1, h2⟩ := ih (dictInsert d (taskId entry v) v) (nodup_dictKeys_dictInsert hd _ _)
    refine ⟨h1, ?_⟩
    rw [h2, toFinset_dictKeys_dictInsert]
    simp [Finset.insert_union, Finset.union_insert]

lemma tasksOf_keys_nodup (entry : String) (values : List PyVal) :
    (dictKeys (tasksOf entry values)).Nodup :=
  (tasksOf_fold_keys entry values [] (by simp [dictKeys])).1

lemma tasksOf_length (entry : String) (values : List PyVal) :
    (tasksOf entry values).length = ((values.map (taskId entry)).dedup).length := by
  have h := tasksOf_fold_keys entry values [] (by simp [dictKeys])
  simp only [tasksOf]
  have hlen : (values.foldl (fun d v => dictInsert d (taskId entry v) v) []).length =
      (dictKeys (values.foldl (fun d v => dictInsert d (taskId entry v) v) [])).length := by
    simp [dictKeys]
  rw [hlen, ← List.toFinset_card_of_nodup h.1]
  have h2 : (dictKeys (values.foldl (fun d v => dictInsert d (taskId entry v) v) [])).toFinset =
      (values.map (taskId entry)).toFinset := by
    simpa [dictKeys] using h.2
  rw [h2, List.card_toFinset]

lemma dictGet_foldl_insert {α : Type} (f : α → String) (vs : List α) :
    ∀ (d : List (String × α)) (k : String),
      dictGet (vs.foldl (fun d v => dictInsert d (f v) v) d) k =
        (vs.reverse.find? (fun v => f v == k)).or (dictGet d k) := by
  induction vs with
  | nil => intro d k; simp
  | cons v vs ih =>
    intro d k
    simp only [List.foldl_cons, List.reverse_cons, List.find?_append, ih,
      dictGet_dictInsert, Option.or_assoc]
    congr 1
    by_cases h : f v = k
    · simp [List.find?, h]
    · have hb : (f v == k) = false := by simp [h]
      simp only [List.find?, hb, Option.or]
      split <;> simp_all

/-- `dictGet` on `tasksOf` finds the last value (in `values` order) whose
formatted task id equals `k`: Python dict-comprehension collision semantics. -/
lemma dictGet_tasksOf (entry : String) (values : List PyVal) (k : String) :
    dictGet (tasksOf entry values) k =
      values.reverse.find? (fun v => taskId entry v == k) := by
  have h := dictGet_foldl_insert (taskId entry) values [] k
  simpa [tasksOf, dictGet] using h

lemma getEntry_ok_cons {base : PyVal} {k : String} {rest : List String} {cur : PyVal}
    (h : getEntry base (k :: rest) = Except.ok cur) :
    ∃ d sub, base = PyVal.pyDict d ∧ dictGet d k = some sub ∧
      getEntry sub rest = Except.ok cur := by
  cases base <;> simp [getEntry, getItem, bind, Except.bind] at h
  case pyDict d =>
    cases hd : dictGet d k with
    | none => rw [hd] at h; simp at h
    | some sub => rw [hd] at h; exact ⟨d, sub, rfl, hd, h⟩

lemma getEntry_cons (v : PyVal) (k : String) (rest : List String) :
    getEntry v (k :: rest) =
      (do
        let sub ← getItem v k
        getEntry sub rest) := rfl

lemma replace_entry_cons (nested : PyVal) (k : String) (rest : List String) (value : PyVal) :
    replace_entry nested (k :: rest) value =
      (do
        let sub ← getItem nested k
        let sub' ←
          match rest with
          | [] =>
            match sub with
            | PyVal.pyList [] => Except.error PyErr.indexError
            | PyVal.pyList (_ :: tl) => Except.ok (PyVal.pyList (value :: tl))
            | _ => Except.ok value
          | _ :: _ => replace_entry sub rest value
        setItem nested k sub') := rfl

/-- Core correctness of the recursive descent: if the dot-path reads back
value `cur` from `base`, then `replace_entry` succeeds and afterwards the
same path reads back `replVal cur v` (head-replacement for nonempty
sequences, wholesale replacement otherwise). -/
lemma replace_entry_ok (v : PyVal) :
    ∀ (keys : List String) (base cur : PyVal), keys ≠ [] →
      getEntry base keys = Except.ok cur → cur ≠ PyVal.pyList [] →
      ∃ out, replace_entry base keys v = Except.ok out ∧
        getEntry out keys = Except.ok (replVal cur v) := by
  intro keys
  induction keys with
  | nil => intro base cur hne; exact absurd rfl hne
  | cons k rest ih =>
    intro base cur _ hget hcur
    obtain ⟨d, sub, rfl, hd, hsub⟩ := getEntry_ok_cons hget
    cases rest with
    | nil =>
      have hc : sub = cur := by simpa [getEntry] using hsub
      subst hc
      refine ⟨PyVal.pyDict (dictInsert d k (replVal sub v)), ?_, ?_⟩
      · cases sub with
        | pyList es =>
          cases es with
          | nil => exact absurd rfl hcur
          | cons a tl =>
            simp [replace_entry, getItem, setItem, hd, bind, Except.bind, replVal]
        | pyInt n => simp [replace_entry, getItem, setItem, hd, bind, Except.bind, replVal]
        | pyBool b => simp [replace_entry, getItem, setItem, hd, bind, Except.bind, replVal]
        | pyStr s => simp [replace_entry, getItem, setItem, hd, bind, Except.bind, replVal]
        | pyDict d' => simp [replace_entry, getItem, setItem, hd, bind, Except.bind, replVal]
      · simp [getEntry, getItem, dictGet_dictInsert, bind, Except.bind]
    | cons k2 rest2 =>
      obtain ⟨out', ho1, ho2⟩ := ih sub cur (by simp) hsub hcur
      refine ⟨PyVal.pyDict (dictInsert d k out'), ?_, ?_⟩
      · rw [replace_entry_cons]
        simp only [getItem, hd, bind, Except.bind, ho1, setItem]
      · rw [getEntry_cons]
        simp only [getItem, dictGet_dictInsert, if_pos, bind, Except.bind, ho2]

/-- When the task id is present, `configuration` is exactly the recursive
descent applied to the defaults with the looked-up value. -/
lemma configuration_eq_replace (h : SimulationHandler) (task : String) (v : PyVal)
    (hv : dictGet (tasksOf h.entry h.values) task = some v) :
    SimulationHandler.configuration h task =
      replace_entry h.defaults (pySplit h.entry '.') v := by
  simp [SimulationHandler.configuration, hv, bind, Except.bind]

lemma pySplitAux_ne_nil (sep : Char) (cs acc : List Char) :
    pySplitAux sep cs acc ≠ [] := by
  induction cs generalizing acc with
  | nil => simp [pySplitAux]
  | cons c cs ih =>
    by_cases h : c = sep <;> simp [pySplitAux, h, ih]

lemma pySplit_ne_nil (s : String) (sep : Char) : pySplit s sep ≠ [] :=
  pySplitAux_ne_nil sep s.toList []

/-- Defaults mapping of the spec's concrete scenario:
`{"a": {"b": [1, 2]}}`. -/
def exDefaults : PyVal :=
  PyVal.pyDict [("a", PyVal.pyDict [("b", PyVal.pyList [PyVal.pyInt 1, PyVal.pyInt 2])])]

/-- Handler for the spec's concrete scenario: entry `"a.b"`,
values `[10, 20]`. -/
def exHandler : SimulationHandler :=
  ⟨exDefaults, "a.b", [PyVal.pyInt 10, PyVal.pyInt 20]⟩

/-- Does every non-final key of the dot-path exist in the nested mapping
with a sub-mapping as its value?  This is the spec's resolution condition
for `ConfigPathError` (stated for the check; the code never runs it). -/
def prefixResolvable : PyVal → List String → Bool
  | _, [] => true
  | _, [_] => true
  | PyVal.pyDict d, k :: rest =>
    match dictGet d k with
    | some (PyVal.pyDict d') => prefixResolvable (PyVal.pyDict d') rest
    | _ => false
  | _, _ :: _ :: _ => false

lemma replace_entry_not_dict {base : PyVal} (hbase : ∀ d, base ≠ PyVal.pyDict d)
    (k : String) (rest : List String) (v : PyVal) :
    replace_entry base (k :: rest) v = Except.error PyErr.typeError := by
  rw [replace_entry_cons]
  cases base with
  | pyDict d => exact absurd rfl (hbase d)
  | pyInt n => simp [getItem, bind, Except.bind]
  | pyBool b => simp [getItem, bind, Except.bind]
  | pyStr s => simp [getItem, bind, Except.bind]
  | pyList es => simp [getItem, bind, Except.bind]

/-- When some non-final key of the path is missing or is not a sub-mapping,
the recursive descent fails with `KeyError` or `TypeError`. -/
lemma replace_entry_path_error (v : PyVal) :
    ∀ (keys : List String) (base : PyVal), prefixResolvable base keys = false →
      ∃ e, replace_entry base keys v = Except.error e ∧
        (e = PyErr.typeError ∨ ∃ k, e = PyErr.keyError k) := by
  intro keys
  induction keys with
  | nil => intro base h; simp [prefixResolvable] at h
  | cons k rest ih =>
    intro base h
    cases rest with
    | nil => simp [prefixResolvable] at h
    | cons k2 rest2 =>
      cases base with
      | pyDict d =>
        rw [replace_entry_cons]
        cases hd : dictGet d k with
        | none =>
          refine ⟨PyErr.keyError k, ?_, Or.inr ⟨k, rfl⟩⟩
          simp [getItem, hd, bind, Except.bind]
        | some sub =>
          have hsub : replace_entry sub (k2 :: rest2) v = Except.error PyErr.typeError ∨
              (∃ e, replace_entry sub (k2 :: rest2) v = Except.error e ∧
                (e = PyErr.typeError ∨ ∃ k', e = PyErr.keyError k')) := by
            cases sub with
            | pyDict d' =>
              right
              apply ih
              simpa [prefixResolvable, hd] using h
            | pyInt n => left; exact replace_entry_not_dict (by intro d' he; cases he) _ _ _
            | pyBool b => left; exact replace_entry_not_dict (by intro d' he; cases he) _ _ _
            | pyStr s => left; exact replace_entry_not_dict (by intro d' he; cases he) _ _ _
            | pyList es => left; exact replace_entry_not_dict (by intro d' he; cases he) _ _ _
          rcases hsub with he | ⟨e, he, hshape⟩
          · refine ⟨PyErr.typeError, ?_, Or.inl rfl⟩
            simp [getItem, hd, bind, Except.bind, he]
          · refine ⟨e, ?_, hshape⟩
            simp [getItem, hd, bind, Except.bind, he]
      | pyInt n =>
        exact ⟨PyErr.typeError, replace_entry_not_dict (by intro d' he; cases he) _ _ _, Or.inl rfl⟩
      | pyBool b =>
        exact ⟨PyErr.typeError, replace_entry_not_dict (by intro d' he; cases he) _ _ _, Or.inl rfl⟩
      | pyStr s =>
        exact ⟨PyErr.typeError, replace_entry_not_dict (by intro d' he; cases he) _ _ _, Or.inl rfl⟩
      | pyList es =>
        exact ⟨PyErr.typeError, replace_entry_not_dict (by intro d' he; cases he) _ _ _, Or.inl rfl⟩

/-- Claim C3 (code bug): for the scenario handler, looking up a task id that
is not in the derived task set does fail, but with a bare `KeyError` raised
by `self.tasks[task]` — the dedicated guard `assert task is not None,
'invalid value'` tests the wrong variable (`task`, a string, instead of the
`value` just fetched with `.get(task, None)`) and passes vacuously.  A
present task id delegates to the resolver and succeeds. -/
theorem configuration_unknown_task_keyerror :
    SimulationHandler.configuration exHandler "nope" =
      Except.error (PyErr.keyError "nope") ∧
    SimulationHandler.configuration exHandler "a.b_10" =
      Except.ok (PyVal.pyDict [("a", PyVal.pyDict
        [("b", PyVal.pyList [PyVal.pyInt 10, PyVal.pyInt 2])])]) := by
  decide

/-- Claim C4, counterexample: the Python values `1` and `"1"` are distinct
(so `len(set(values)) = 2`) but format to the same task id `"a_1"`; the
task dict silently merges them into a single entry holding the later value,
and no configuration error is reported, so
`len(tasks()) == len(set(values))` fails. -/
theorem tasks_collision_silently_merged :
    tasksOf "a" [PyVal.pyInt 1, PyVal.pyStr "1"] = [("a_1", PyVal.pyStr "1")] ∧
    ¬ (tasksOf "a" [PyVal.pyInt 1, PyVal.pyStr "1"]).length =
        ([PyVal.pyInt 1, PyVal.pyStr "1"].dedup).length := by
  decide

/-- Claim C4 (amended): the derived task mapping always has pairwise
distinct task ids; its size equals the number of distinct formatted ids
`"{entry}_{value}"` (which equals `len(set(values))` exactly when
formatting is injective on the values); and lookup returns the value of the
last colliding element of `values` — id collisions between distinct values
are silently merged, not reported.  Stability under re-derivation is
immediate: `tasksOf` is recomputed from `(entry, values)` alone. -/
theorem tasks_unique_ids_and_silent_merge (entry : String) (values : List PyVal) :
    (dictKeys (tasksOf entry values)).Nodup ∧
    (tasksOf entry values).length = ((values.map (taskId entry)).dedup).length ∧
    ∀ k, dictGet (tasksOf entry values) k =
      values.reverse.find? (fun v => taskId entry v == k) :=
  ⟨tasksOf_keys_nodup entry values, tasksOf_length entry values,
    fun k => dictGet_tasksOf entry values k⟩

/-- Variation dict `{"entry": "b.c", "values": [10]}` whose entry path does
not resolve inside the defaults `{"a": 1}`. -/
def exBadVariation : PyVal :=
  PyVal.pyDict [("entry", PyVal.pyStr "b.c"), ("values", PyVal.pyList [PyVal.pyInt 10])]

/-- Claim C5, counterexample: although the variation entry path `"b.c"` does
not resolve inside the defaults `{"a": 1}`, handler construction succeeds
(no `ConfigPathError`, no error at all); the failure only surfaces later,
when `configuration` is called, and then as a `KeyError`. -/
theorem init_accepts_unresolvable_path :
    SimulationHandler.init (PyVal.pyDict [("a", PyVal.pyInt 1)]) exBadVariation =
      Except.ok ⟨PyVal.pyDict [("a", PyVal.pyInt 1)], "b.c", [PyVal.pyInt 10]⟩ ∧
    SimulationHandler.configuration
        ⟨PyVal.pyDict [("a", PyVal.pyInt 1)], "b.c", [PyVal.pyInt 10]⟩ "b.c_10" =
      Except.error (PyErr.keyError "b") := by
  decide

/-- Claim C5 (amended): handler construction performs no validation of the
entry path — `init` succeeds for any defaults whenever the variation dict is
well-formed — and when some non-final key of the dot-path is missing or is
not a sub-mapping, the failure is raised only when `configuration(task_id)`
runs, as a `KeyError` or `TypeError` from the recursive descent, not as a
dedicated path error at construction. -/
theorem path_error_raised_at_configuration (defaults : PyVal) (entry : String)
    (values : List PyVal) :
    SimulationHandler.init defaults
        (PyVal.pyDict [("entry", PyVal.pyStr entry), ("values", PyVal.pyList values)]) =
      Except.ok ⟨defaults, entry, values⟩ ∧
    (prefixResolvable defaults (pySplit entry '.') = false →
      ∀ task v, dictGet (tasksOf entry values) task = some v →
        ∃ e, SimulationHandler.configuration ⟨defaults, entry, values⟩ task =
            Except.error e ∧
          (e = PyErr.typeError ∨ ∃ k, e = PyErr.keyError k)) := by
  constructor
  · rfl
  · intro hbad task v hv
    obtain ⟨e, he, hshape⟩ :=
      replace_entry_path_error v (pySplit entry '.') defaults hbad
    refine ⟨e, ?_, hshape⟩
    rw [configuration_eq_replace ⟨defaults, entry, values⟩ task v hv]
    exact he

/-- Witness for C5's amended theorem at the concrete bad-path instance. -/
theorem path_error_raised_at_configuration_witness :
    SimulationHandler.init (PyVal.pyDict [("a", PyVal.pyInt 1)])
        (PyVal.pyDict [("entry", PyVal.pyStr "b.c"),
          ("values", PyVal.pyList [PyVal.pyInt 10])]) =
      Except.ok ⟨PyVal.pyDict [("a", PyVal.pyInt 1)], "b.c", [PyVal.pyInt 10]⟩ ∧
    prefixResolvable (PyVal.pyDict [("a", PyVal.pyInt 1)]) (pySplit "b.c" '.') = false ∧
    dictGet (tasksOf "b.c" [PyVal.pyInt 10]) "b.c_10" = some (PyVal.pyInt 10) ∧
    ∃ e, SimulationHandler.configuration
          ⟨PyVal.pyDict [("a", PyVal.pyInt 1)], "b.c", [PyVal.pyInt 10]⟩ "b.c_10" =
        Except.error e ∧
      (e = PyErr.typeError ∨ ∃ k, e = PyErr.keyError k) :=
  ⟨(path_error_raised_at_configuration (PyVal.pyDict [("a", PyVal.pyInt 1)]) "b.c"
      [PyVal.pyInt 10]).1,
   by decide, by decide,
   (path_error_raised_at_configuration (PyVal.pyDict [("a", PyVal.pyInt 1)]) "b.c"
      [PyVal.pyInt 10]).2 (by decide) "b.c_10" (PyVal.pyInt 10) (by decide)⟩

/-- Claim C6: if the pre-existing value at the entry path is a sequence
`a :: rest`, the resolved configuration holds `value :: rest` at that path —
only the head is replaced, sibling elements are preserved; and the spec's
concrete scenario: defaults `{"a": {"b": [1, 2]}}` with values `[10, 20]`
gives tasks `{"a.b_10": 10, "a.b_20": 20}` and
`configuration("a.b_10") = {"a": {"b": [10, 2]}}`. -/
theorem configuration_sequence_head_replacement :
    (∀ (dflt : PyVal) (entry task : String) (values : List PyVal)
        (v a : PyVal) (rest : List PyVal),
      dictGet (tasksOf entry values) task = some v →
      getEntry dflt (pySplit entry '.') = Except.ok (PyVal.pyList (a :: rest)) →
      Except.bind (SimulationHandler.configuration ⟨dflt, entry, values⟩ task)
          (fun out => getEntry out (pySplit entry '.')) =
        Except.ok (PyVal.pyList (v :: rest))) ∧
    tasksOf "a.b" [PyVal.pyInt 10, PyVal.pyInt 20] =
      [("a.b_10", PyVal.pyInt 10), ("a.b_20", PyVal.pyInt 20)] ∧
    SimulationHandler.configuration exHandler "a.b_10" =
      Except.ok (PyVal.pyDict [("a", PyVal.pyDict
        [("b", PyVal.pyList [PyVal.pyInt 10, PyVal.pyInt 2])])]) := by
  refine ⟨?_, by decide, by decide⟩
  intro dflt entry task values v a rest hv hget
  obtain ⟨out, ho1, ho2⟩ :=
    replace_entry_ok v (pySplit entry '.') dflt (PyVal.pyList (a :: rest))
      (pySplit_ne_nil entry '.') hget (by simp)
  rw [configuration_eq_replace ⟨dflt, entry, values⟩ task v hv, ho1]
  simpa [Except.bind, replVal] using ho2

/-- Witness for C6's general part at the spec's concrete scenario. -/
theorem configuration_sequence_head_replacement_witness :
    dictGet (tasksOf "a.b" [PyVal.pyInt 10, PyVal.pyInt 20]) "a.b_10" =
      some (PyVal.pyInt 10) ∧
    getEntry exDefaults (pySplit "a.b" '.') =
      Except.ok (PyVal.pyList (PyVal.pyInt 1 :: [PyVal.pyInt 2])) ∧
    Except.bind (SimulationHandler.configuration
        ⟨exDefaults, "a.b", [PyVal.pyInt 10, PyVal.pyInt 20]⟩ "a.b_10")
        (fun out => getEntry out (pySplit "a.b" '.')) =
      Except.ok (PyVal.pyList (PyVal.pyInt 10 :: [PyVal.pyInt 2])) :=
  ⟨by decide, by decide,
    configuration_sequence_head_replacement.1 exDefaults "a.b" "a.b_10"
      [PyVal.pyInt 10, PyVal.pyInt 20] (PyVal.pyInt 10) (PyVal.pyInt 1)
      [PyVal.pyInt 2] (by decide) (by decide)⟩

/-- Claim C7, counterexample: for the scenario handler, the value injected
for task `"a.b_10"` is `10`, but reading the entry path `"a.b"` back out of
the resolved configuration yields the sequence `[10, 2]`, not the injected
value itself — the literal round-trip fails whenever the pre-existing value
at the path is a sequence. -/
theorem roundtrip_fails_for_sequence_entry :
    dictGet (tasksOf "a.b" [PyVal.pyInt 10, PyVal.pyInt 20]) "a.b_10" =
      some (PyVal.pyInt 10) ∧
    Except.bind (SimulationHandler.configuration exHandler "a.b_10")
        (fun out => getEntry out (pySplit "a.b" '.')) =
      Except.ok (PyVal.pyList [PyVal.pyInt 10, PyVal.pyInt 2]) ∧
    Except.bind (SimulationHandler.configuration exHandler "a.b_10")
        (fun out => getEntry out (pySplit "a.b" '.')) ≠
      Except.ok (PyVal.pyInt 10) := by
  decide

/-- Claim C7 (amended): reading the entry path back out of the resolved
configuration yields `replVal cur v`, where `cur` is the pre-existing value
at the path: the injected value itself whenever `cur` is not a sequence,
and the sequence with its head overwritten by the injected value (siblings
kept) when `cur` is a nonempty sequence. -/
theorem configuration_roundtrip (dflt : PyVal) (entry task : String)
    (values : List PyVal) (v cur : PyVal)
    (hv : dictGet (tasksOf entry values) task = some v)
    (hget : getEntry dflt (pySplit entry '.') = Except.ok cur)
    (hcur : cur ≠ PyVal.pyList []) :
    Except.bind (SimulationHandler.configuration ⟨dflt, entry, values⟩ task)
        (fun out => getEntry out (pySplit entry '.')) =
      Except.ok (replVal cur v) := by
  obtain ⟨out, ho1, ho2⟩ :=
    replace_entry_ok v (pySplit entry '.') dflt cur (pySplit_ne_nil entry '.') hget hcur
  rw [configuration_eq_replace ⟨dflt, entry, values⟩ task v hv, ho1]
  simpa [Except.bind] using ho2

/-- Witness for C7's amended theorem at a scalar-valued entry: injecting `7`
at path `"x.y"` (whose pre-existing value is the scalar `1`) reads back as
exactly the injected value. -/
theorem configuration_roundtrip_witness :
    dictGet (tasksOf "x.y" [PyVal.pyInt 7]) "x.y_7" = some (PyVal.pyInt 7) ∧
    getEntry (PyVal.pyDict [("x", PyVal.pyDict [("y", PyVal.pyInt 1)])])
        (pySplit "x.y" '.') = Except.ok (PyVal.pyInt 1) ∧
    (PyVal.pyInt 1 : PyVal) ≠ PyVal.pyList [] ∧
    Except.bind (SimulationHandler.configuration
        ⟨PyVal.pyDict [("x", PyVal.pyDict [("y", PyVal.pyInt 1)])], "x.y",
          [PyVal.pyInt 7]⟩ "x.y_7")
        (fun out => getEntry out (pySplit "x.y" '.')) =
      Except.ok (replVal (PyVal.pyInt 1) (PyVal.pyInt 7)) :=
  ⟨by decide, by decide, by decide,
    configuration_roundtrip
      (PyVal.pyDict [("x", PyVal.pyDict [("y", PyVal.pyInt 1)])]) "x.y" "x.y_7"
      [PyVal.pyInt 7] (PyVal.pyInt 7) (PyVal.pyInt 1)
      (by decide) (by decide) (by decide)⟩

/-- Supported container formats (simulation.py line 19):
`supported = ('.h5', '.hdf', '.hdf5')`. -/
def supported : List String := [".h5", ".hdf", ".hdf5"]

/-- Output dictionary assembled by `SimulationHandler._parse_output` and
consumed by `Simulation._save`: fields `file_name`, `path`, `format`,
`force_overwrite`. -/
structure Output where
  file_name : Option String
  path : Option String
  format : String
  force_overwrite : Bool
deriving DecidableEq, Repr

/-- What a `_save` call did after its checks passed: nothing (no output
requested), or a delegation of the write to `module.save` on `filename`;
replacement semantics of the write itself live in the external module. -/
inductive SaveOutcome where
  | noop
  | written (filename : String)
deriving DecidableEq, Repr

/-- The message of the `RuntimeError` raised by the overwrite guard
(simulation.py lines 139-141). -/
def overwriteMsg (g : String) : String :=
  "Cannot overwrite existing group `" ++ g ++ "` (use force to override)"

/-- `Simulation._save` (simulation.py lines 109-148), line by line: return
early when `self._output` is `None` or has no `file_name`; join `path` onto
the name; when the file exists, raise `RuntimeError` for the first existing
group that is also a key of `self.data` while `mode == 'a'` and not
`force`; finally delegate the write to `module.save` when the format is
supported, else raise `ValueError`.  `dataKeys` are the group names of
`self.data`; `existing` is `none` when `os.path.isfile` is false, else the
list of groups in the file. -/
def Simulation._save (output : Option Output) (dataKeys : List String)
    (existing : Option (List String)) (mode : String) : Except PyErr SaveOutcome :=
  match output with
  | none => Except.ok SaveOutcome.noop
  | some o =>
    match o.file_name with
    | none => Except.ok SaveOutcome.noop
    | some fn =>
      let filename :=
        match o.path with
        | some p => p ++ "/" ++ fn
        | none => fn
      let formatt := "." ++ o.format
      let force := o.force_overwrite
      let collision :=
        match existing with
        | some groups => groups.find? (fun g => dataKeys.contains g && (mode == "a") && !force)
        | none => none
      match collision with
      | some g => Except.error (PyErr.runtimeError (overwriteMsg g))
      | none =>
        if supported.contains formatt then Except.ok (SaveOutcome.written filename)
        else Except.error (PyErr.valueError ("Invalid file format " ++ formatt))

/-- Claim C9: saving task result groups into an existing artifact that
already contains a colliding group fails with the overwrite `RuntimeError`
when `force_overwrite` is false — the guard fires before any write is
delegated — and with `force_overwrite` true (and a supported format) the
very same save succeeds and delegates the write, replacing the group. -/
theorem save_overwrite_guard (o : Output) (fn : String)
    (dataKeys groups : List String) (g : String)
    (hfn : o.file_name = some fn) (hg : g ∈ groups) (hgd : g ∈ dataKeys) :
    (o.force_overwrite = false →
      ∃ g', Simulation._save (some o) dataKeys (some groups) "a" =
          Except.error (PyErr.runtimeError (overwriteMsg g')) ∧
        g' ∈ groups ∧ g' ∈ dataKeys) ∧
    (o.force_overwrite = true → ("." ++ o.format) ∈ supported →
      Simulation._save (some o) dataKeys (some groups) "a" =
        Except.ok (SaveOutcome.written
          (match o.path with | some p => p ++ "/" ++ fn | none => fn))) := by
  constructor
  · intro hforce
    have hp : (fun g => dataKeys.contains g && ("a" == "a") && !o.force_overwrite) g = true := by
      simp [hforce, List.contains, List.elem_iff, hgd]
    have hsome : (groups.find? (fun g => dataKeys.contains g && ("a" == "a") && !o.force_overwrite)).isSome := by
      rw [List.find?_isSome]
      exact ⟨g, hg, hp⟩
    obtain ⟨g', hfind⟩ := Option.isSome_iff_exists.mp hsome
    have hpg' := List.find?_some hfind
    have hmem := List.mem_of_find?_eq_some hfind
    refine ⟨g', ?_, hmem, ?_⟩
    · simp only [Simulation._save, hfn, hfind]
    · have := hpg'
      simp [hforce, List.contains, List.elem_iff] at this
      exact this
  · intro hforce hfmt
    have hnone : groups.find? (fun g => dataKeys.contains g && ("a" == "a") && !o.force_overwrite) = none := by
      rw [List.find?_eq_none]
      intro x _
      simp [hforce]
    simp only [Simulation._save, hfn, hnone]
    simp [hfmt]

/-- Witness for C9 at a concrete collision: artifact groups `["x_1"]`,
incoming data groups `["x_1"]`, once with `force_overwrite=false` (fails)
and once with `force_overwrite=true` (writes). -/
theorem save_overwrite_guard_witness :
    ((⟨some "out.h5", none, "h5", false⟩ : Output).file_name = some "out.h5" ∧
      "x_1" ∈ ["x_1"] ∧ "x_1" ∈ ["x_1"] ∧
      ((⟨some "out.h5", none, "h5", false⟩ : Output).force_overwrite = false →
        ∃ g', Simulation._save (some ⟨some "out.h5", none, "h5", false⟩) ["x_1"]
            (some ["x_1"]) "a" =
            Except.error (PyErr.runtimeError (overwriteMsg g')) ∧
          g' ∈ ["x_1"] ∧ g' ∈ ["x_1"])) ∧
    ((⟨some "out.h5", none, "h5", true⟩ : Output).force_overwrite = true →
      ("." ++ (⟨some "out.h5", none, "h5", true⟩ : Output).format) ∈ supported →
      Simulation._save (some ⟨some "out.h5", none, "h5", true⟩) ["x_1"]
          (some ["x_1"]) "a" = Except.ok (SaveOutcome.written "out.h5")) :=
  ⟨⟨by decide, by decide, by decide,
    (save_overwrite_guard ⟨some "out.h5", none, "h5", false⟩ "out.h5" ["x_1"] ["x_1"] "x_1"
      (by decide) (by decide) (by decide)).1⟩,
   (save_overwrite_guard ⟨some "out.h5", none, "h5", true⟩ "out.h5" ["x_1"] ["x_1"] "x_1"
      (by decide) (by decide) (by decide)).2⟩

/-- One write-path call a worker performs against the shared output
artifact, with the lock state at the moment of the call. -/
inductive WorkerEvent where
  | taskSave (task : String) (lockHeld : Bool)
  | metadataSave (lockHeld : Bool)
deriving DecidableEq, Repr

/-- The `while True` loop of `worker` (simulation.py lines 561-585) over the
tasks this worker dequeues before hitting `queue.Empty`, threading the
binding state of the loop-local `obj` (`none` = never assigned) and the
trace of write-path calls: each iteration rebinds a fresh `obj`, runs the
simulation, calls `obj._save(task=task)` inside `with lock:` (hence lock
held), and puts a completion notice on the observability queue. -/
def workerLoop : List String → Option Unit → List WorkerEvent →
    Option Unit × List WorkerEvent
  | [], obj, evs => (obj, evs)
  | t :: rest, _, evs =>
    workerLoop rest (some ()) (evs ++ [WorkerEvent.taskSave t true])

/-- `worker` (simulation.py lines 535-592) for a given dequeued task
sequence: runs the loop, then executes `obj._save_metadata(metadata)` after
it, outside the lock.  A worker that never dequeued a task reaches that
statement with `obj` unbound and raises `NameError`; otherwise the call
delegates to the metadata writer (emitting its event with the lock not
held) unless `metadata` or the output dict is `None` — the early returns of
`_save_metadata` (simulation.py lines 159-163). -/
def workerRun (myTasks : List String) (output : Option Output)
    (metadata : Option PyVal) : List WorkerEvent × Option PyErr :=
  let r := workerLoop myTasks none []
  match r.1 with
  | none => (r.2, some PyErr.nameError)
  | some _ =>
    match metadata, output with
    | some _, some _ => (r.2 ++ [WorkerEvent.metadataSave false], none)
    | _, _ => (r.2, none)

/-- A possible division of the queued tasks among `w` workers:
`run_parallel` (simulation.py lines 502-524) puts all sorted tasks on one
shared first-come-first-served queue and starts `w` worker processes that
dequeue until empty, so an execution hands each task to exactly one worker.
Requiring only that the concatenation be a permutation of the queue
over-approximates the reachable interleavings (each worker's list in fact
also respects queue order), which is sound for universal statements; the
concrete schedules used below are order-respecting and reachable. -/
def IsSchedule (tasks : List String) (w : Nat) (schedule : List (List String)) : Prop :=
  schedule.length = w ∧ schedule.flatten.Perm tasks

/-- One `run_parallel` execution at the granularity of the claims: the
per-worker traces and outcomes under a given schedule.  The coordinator
starts the workers, joins them all (an unhandled per-worker error
terminates only that worker's process) and then drains the observability
queue; it performs no write of its own. -/
def runParallelTraces (schedule : List (List String)) (output : Option Output)
    (metadata : Option PyVal) : List (List WorkerEvent × Option PyErr) :=
  schedule.map (fun ts => workerRun ts output metadata)

/-- Is an event a metadata-persisting `save_metadata` delegation? -/
def WorkerEvent.isMetadataSave : WorkerEvent → Bool
  | WorkerEvent.metadataSave _ => true
  | _ => false

/-- Number of metadata-persisting `save_metadata` delegations in a run. -/
def metadataSaves (traces : List (List WorkerEvent × Option PyErr)) : Nat :=
  (traces.map (fun tr => (tr.1.filter WorkerEvent.isMetadataSave).length)).sum

lemma workerLoop_spec (ts : List String) :
    ∀ (obj : Option Unit) (evs : List WorkerEvent),
      workerLoop ts obj evs =
        ((if ts.isEmpty then obj else some ()),
          evs ++ ts.map (fun t => WorkerEvent.taskSave t true)) := by
  induction ts with
  | nil => intro obj evs; simp [workerLoop]
  | cons t rest ih =>
    intro obj evs
    simp [workerLoop, ih, List.append_assoc]

/-- A worker that dequeued at least one task emits its per-task saves (lock
held) followed by exactly one unlocked metadata save, and terminates
cleanly. -/
lemma workerRun_nonempty (t : String) (ts : List String) (o : Output) (m : PyVal) :
    workerRun (t :: ts) (some o) (some m) =
      ((t :: ts).map (fun t => WorkerEvent.taskSave t true) ++
        [WorkerEvent.metadataSave false], none) := by
  simp [workerRun, workerLoop_spec]

/-- A worker that dequeued no task crashes with `NameError` at the final
metadata-save statement, having written nothing. -/
lemma workerRun_empty (o : Option Output) (m : Option PyVal) :
    workerRun [] o m = ([], some PyErr.nameError) := rfl

/-- Claim C1, counterexample: a reachable execution of the spec's scenario
run (tasks `["a.b_10", "a.b_20"]`, two workers, each dequeuing one task,
output and metadata present) persists run provenance with TWO
`save_metadata` calls — one per worker — not exactly once per run. -/
theorem metadata_saved_twice_in_two_worker_run :
    dictKeys (tasksOf "a.b" [PyVal.pyInt 10, PyVal.pyInt 20]) = ["a.b_10", "a.b_20"] ∧
    IsSchedule ["a.b_10", "a.b_20"] 2 [["a.b_10"], ["a.b_20"]] ∧
    metadataSaves (runParallelTraces [["a.b_10"], ["a.b_20"]]
        (some ⟨some "out.h5", none, "h5", false⟩) (some (PyVal.pyDict []))) = 2 ∧
    metadataSaves (runParallelTraces [["a.b_10"], ["a.b_20"]]
        (some ⟨some "out.h5", none, "h5", false⟩) (some (PyVal.pyDict []))) ≠ 1 := by
  refine ⟨by decide, ⟨by decide, by decide⟩, by decide, by decide⟩

/-- Claim C1 (amended): in every parallel run with output and metadata
present, each worker that dequeued at least one task performs its own final
`save_metadata` call after its loop, so provenance is persisted once per
such worker — not once per run; workers that dequeued no task crash with
`NameError` before saving anything. -/
theorem metadata_saved_once_per_active_worker (schedule : List (List String))
    (o : Output) (m : PyVal) :
    metadataSaves (runParallelTraces schedule (some o) (some m)) =
      (schedule.filter (fun ts => !ts.isEmpty)).length := by
  induction schedule with
  | nil => rfl
  | cons ts rest ih =>
    cases ts with
    | nil =>
      simpa [runParallelTraces, metadataSaves, workerRun_empty, List.filter]
        using ih
    | cons t ts' =>
      have h1 := workerRun_nonempty t ts' o m
      simp only [runParallelTraces, metadataSaves, List.map_cons, List.sum_cons, h1,
        List.filter] at ih ⊢
      rw [ih]
      have hcomp : (WorkerEvent.isMetadataSave ∘ fun t => WorkerEvent.taskSave t true) =
          fun _ => false := rfl
      simp [List.filter_append, WorkerEvent.isMetadataSave, List.filter_map, hcomp]
      omega

/-- Claim C2, counterexample: in a reachable parallel execution (one worker,
one task, output and metadata present) the final metadata write executes
with the lock NOT held: the worker's trace is a locked per-task save
followed by an unlocked `metadataSave` — so not every write path to the
shared artifact holds the cross-worker lock. -/
theorem metadata_write_not_under_lock :
    (runParallelTraces [["a.b_10"]] (some ⟨some "out.h5", none, "h5", false⟩)
        (some (PyVal.pyDict []))).map Prod.fst =
      [[WorkerEvent.taskSave "a.b_10" true, WorkerEvent.metadataSave false]] ∧
    WorkerEvent.metadataSave false ∈
      (workerRun ["a.b_10"] (some ⟨some "out.h5", none, "h5", false⟩)
        (some (PyVal.pyDict []))).1 := by
  refine ⟨by decide, by decide⟩

/-- Claim C2 (amended): in every parallel run, every per-task `_save` call
executes while holding the single cross-worker lock, but each worker's
final `_save_metadata` call executes after its loop without the lock. -/
theorem task_saves_locked_metadata_save_unlocked (schedule : List (List String))
    (o : Option Output) (m : Option PyVal) (tr : List WorkerEvent × Option PyErr)
    (htr : tr ∈ runParallelTraces schedule o m) (e : WorkerEvent) (he : e ∈ tr.1) :
    (∀ t b, e = WorkerEvent.taskSave t b → b = true) ∧
    (∀ b, e = WorkerEvent.metadataSave b → b = false) := by
  simp only [runParallelTraces, List.mem_map] at htr
  obtain ⟨ts, _, rfl⟩ := htr
  have hloop := workerLoop_spec ts none []
  have hmem : e ∈ ts.map (fun t => WorkerEvent.taskSave t true) ++
      [WorkerEvent.metadataSave false] ∨
      e ∈ ts.map (fun t => WorkerEvent.taskSave t true) := by
    simp only [workerRun, hloop] at he
    split at he
    · right; simpa using he
    · split at he
      · left; simpa using he
      · right; simpa using he
  have hcase : (∃ t, e = WorkerEvent.taskSave t true) ∨
      e = WorkerEvent.metadataSave false := by
    rcases hmem with hm | hm
    · rcases List.mem_append.mp hm with hm' | hm'
      · obtain ⟨t, _, rfl⟩ := List.mem_map.mp hm'
        exact Or.inl ⟨t, rfl⟩
      · simp at hm'; exact Or.inr hm'
    · obtain ⟨t, _, rfl⟩ := List.mem_map.mp hm
      exact Or.inl ⟨t, rfl⟩
  rcases hcase with ⟨t, rfl⟩ | rfl
  · exact ⟨fun t' b hb => (by cases hb; rfl), fun b hb => (by cases hb)⟩
  · exact ⟨fun t' b hb => (by cases hb), fun b hb => (by cases hb; rfl)⟩

/-- Witness for C2's amended theorem: the unlocked metadata-save event of a
concrete one-worker run. -/
theorem task_saves_locked_metadata_save_unlocked_witness :
    workerRun ["a.b_10"] (some ⟨some "out.h5", none, "h5", false⟩)
        (some (PyVal.pyDict [])) ∈
      runParallelTraces [["a.b_10"]] (some ⟨some "out.h5", none, "h5", false⟩)
        (some (PyVal.pyDict [])) ∧
    WorkerEvent.metadataSave false ∈
      (workerRun ["a.b_10"] (some ⟨some "out.h5", none, "h5", false⟩)
        (some (PyVal.pyDict []))).1 ∧
    ((∀ t b, WorkerEvent.metadataSave false = WorkerEvent.taskSave t b → b = true) ∧
      (∀ b, WorkerEvent.metadataSave false = WorkerEvent.metadataSave b → b = false)) :=
  ⟨by simp [runParallelTraces], by decide,
    task_saves_locked_metadata_save_unlocked [["a.b_10"]]
      (some ⟨some "out.h5", none, "h5", false⟩) (some (PyVal.pyDict []))
      (workerRun ["a.b_10"] (some ⟨some "out.h5", none, "h5", false⟩)
        (some (PyVal.pyDict [])))
      (by simp [runParallelTraces]) (WorkerEvent.metadataSave false) (by decide)⟩

lemma exists_nil_of_flatten_short (schedule : List (List String))
    (h : schedule.flatten.length < schedule.length) :
    ∃ ts ∈ schedule, ts = [] := by
  induction schedule with
  | nil => simp at h
  | cons ts rest ih =>
    cases ts with
    | nil => exact ⟨[], List.mem_cons_self _ _, rfl⟩
    | cons t ts' =>
      have h' : rest.flatten.length < rest.length := by
        rw [List.flatten_cons, List.length_append] at h
        simp only [List.length_cons] at h
        omega
      obtain ⟨ts0, hmem, hnil⟩ := ih h'
      exact ⟨ts0, List.mem_cons_of_mem _ hmem, hnil⟩

/-- Claim C10: in every `run_parallel` execution in which the worker count
exceeds the number of tasks on the shared queue, some worker dequeues no
task; that worker reaches the final metadata-save statement with its local
simulation object `obj` never having been bound and terminates with
`NameError` (having written nothing) instead of completing cleanly. -/
theorem idle_worker_hits_nameerror (tasks : List String) (w : Nat)
    (schedule : List (List String)) (o : Option Output) (m : Option PyVal)
    (hs : IsSchedule tasks w schedule) (hw : tasks.length < w) :
    ∃ ts ∈ schedule, ts = [] ∧
      workerRun ts o m = ([], some PyErr.nameError) := by
  obtain ⟨hlen, hperm⟩ := hs
  have hshort : schedule.flatten.length < schedule.length := by
    rw [hperm.length_eq, hlen]
    exact hw
  obtain ⟨ts, hmem, rfl⟩ := exists_nil_of_flatten_short schedule hshort
  exact ⟨[], hmem, rfl, workerRun_empty o m⟩

/-- Witness for C10: one task, two workers; the second worker dequeues
nothing and dies with `NameError`. -/
theorem idle_worker_hits_nameerror_witness :
    IsSchedule ["a.b_10"] 2 [["a.b_10"], []] ∧ (["a.b_10"] : List String).length < 2 ∧
    ∃ ts ∈ [["a.b_10"], []], ts = [] ∧
      workerRun ts (some ⟨some "out.h5", none, "h5", false⟩)
          (some (PyVal.pyDict [])) = ([], some PyErr.nameError) :=
  ⟨⟨rfl, by decide⟩, by decide,
    idle_worker_hits_nameerror ["a.b_10"] 2 [["a.b_10"], []]
      (some ⟨some "out.h5", none, "h5", false⟩) (some (PyVal.pyDict []))
      ⟨rfl, by decide⟩ (by decide)⟩

/-- A Python object in the heap model: scalars are immutable atoms; list
and dict objects hold the ADDRESSES of their elements, making object
identity, sharing and in-place mutation explicit. -/
inductive HObj where
  | hInt (n : Int)
  | hBool (b : Bool)
  | hStr (s : String)
  | hList (elems : List Nat)
  | hDict (items : List (String × Nat))
deriving DecidableEq, Repr

/-- Addresses of the direct children of an object. -/
def HObj.childAddrs : HObj → List Nat
  | HObj.hList es => es
  | HObj.hDict its => its.map Prod.snd
  | _ => []

/-- The heap: the object at address `a` is the list entry at index `a`;
allocation appends at the end, mutation is `List.set`. -/
abbrev Heap := List HObj

mutual

/-- Allocate a value tree in the heap bottom-up: children first, then the
node, every node fresh.  This is how both initial construction of parsed
configuration data and `copy.deepcopy` build objects: the copy shares no
object with anything previously in the heap. -/
def store : Heap → PyVal → Heap × Nat
  | h, PyVal.pyInt n => (h ++ [HObj.hInt n], h.length)
  | h, PyVal.pyBool b => (h ++ [HObj.hBool b], h.length)
  | h, PyVal.pyStr s => (h ++ [HObj.hStr s], h.length)
  | h, PyVal.pyList es =>
    let r := storeList h es
    (r.1 ++ [HObj.hList r.2], r.1.length)
  | h, PyVal.pyDict its =>
    let r := storeItems h its
    (r.1 ++ [HObj.hDict r.2], r.1.length)

/-- Allocate each element of a sequence, left to right. -/
def storeList : Heap → List PyVal → Heap × List Nat
  | h, [] => (h, [])
  | h, v :: vs =>
    let r := store h v
    let r2 := storeList r.1 vs
    (r2.1, r.2 :: r2.2)

/-- Allocate each value of a mapping, left to right. -/
def storeItems : Heap → List (String × PyVal) → Heap × List (String × Nat)
  | h, [] => (h, [])
  | h, (k, v) :: its =>
    let r := store h v
    let r2 := storeItems r.1 its
    (r2.1, (k, r.2) :: r2.2)

end

/-- Read the value tree rooted at an address, with fuel (the heaps built
here are acyclic, so enough fuel always exists). -/
def loadAux : Nat → Heap → Nat → Option PyVal
  | 0, _, _ => none
  | fuel + 1, h, a =>
    match h.get? a with
    | some (HObj.hInt n) => some (PyVal.pyInt n)
    | some (HObj.hBool b) => some (PyVal.pyBool b)
    | some (HObj.hStr s) => some (PyVal.pyStr s)
    | some (HObj.hList es) => (es.mapM (loadAux fuel h)).map PyVal.pyList
    | some (HObj.hDict its) =>
      (its.mapM (fun p => (loadAux fuel h p.2).map (fun v => (p.1, v)))).map PyVal.pyDict
    | none => none

/-- Read the value tree rooted at `a`: in the bottom-up heaps handled here
every child address is below its parent, so fuel `a + 1` suffices. -/
def load (h : Heap) (a : Nat) : Option PyVal :=
  loadAux (a + 1) h a

/-- `out = deepcopy(self._defaults)` (simulation.py line 367): read the
tree and allocate a fully fresh copy.  Atoms are copied fresh as well —
they are immutable in Python, so sharing them is unobservable, and copying
them gives the copy a fully disjoint address set. -/
def deepcopyH (h : Heap) (a : Nat) : Option (Heap × Nat) :=
  (load h a).map (store h)

/-- `replace_entry` (simulation.py lines 370-380) as the in-place heap
mutation Python performs: descend from the dict object at `a` along the
keys; at the final key either overwrite the head of a list object in place
(`sub[0] = value` — a write to the shared list object) or rebind the dict
entry to the new value's address; on the way out re-assign
`nested[key] = sub` (idempotent at inner levels: `sub` is the same
object).  Returns `none` where Python would raise (missing key, non-dict
container, empty list, empty key list). -/
def replaceEntryH : Heap → Nat → List String → Nat → Option Heap
  | _, _, [], _ => none
  | h, a, k :: rest, va =>
    match h.get? a with
    | some (HObj.hDict items) =>
      match dictGet items k with
      | none => none
      | some sa =>
        match rest with
        | [] =>
          match h.get? sa with
          | some (HObj.hList []) => none
          | some (HObj.hList (_ :: tl)) =>
            some ((h.set sa (HObj.hList (va :: tl))).set a
              (HObj.hDict (dictInsert items k sa)))
          | some _ =>
            some (h.set a (HObj.hDict (dictInsert items k va)))
          | none => none
        | _ :: _ =>
          match replaceEntryH h sa rest va with
          | some h' => some (h'.set a (HObj.hDict (dictInsert items k sa)))
          | none => none
    | _ => none

/-- The resolution core of `configuration` (simulation.py lines 367-385) in
the heap model: deep-copy the defaults rooted at `root`, allocate the
looked-up task value, and run the in-place recursive descent on the copy.
Returns the final heap and the address of the resolved configuration. -/
def configurationH (h : Heap) (root : Nat) (keys : List String) (value : PyVal) :
    Option (Heap × Nat) :=
  match deepcopyH h root with
  | none => none
  | some p =>
    let r := store p.1 value
    match replaceEntryH r.1 p.2 keys r.2 with
    | none => none
    | some h2 => some (h2, p.2)

/-- Every live object's children are live: true of any heap Python can
observe, and preserved by all operations here.  (Boolean, so a concrete
heap can be checked by evaluation.) -/
def inRangeB (h : Heap) : Bool :=
  h.all (fun o => o.childAddrs.all (fun c => decide (c < h.length)))

/-- All objects at addresses ≥ `n` have children only at addresses ≥ `n`:
the freshly allocated region never points back into the old heap. -/
def RegionClosed (h : Heap) (n : Nat) : Prop :=
  ∀ a o, n ≤ a → h.get? a = some o → ∀ c ∈ o.childAddrs, n ≤ c

/-- Reachability along child addresses: the addresses of the objects that
make up the structure rooted at `a`. -/
inductive Reaches (h : Heap) (a : Nat) : Nat → Prop
  | refl : Reaches h a a
  | step {b c : Nat} {o : HObj} : Reaches h a b → h.get? b = some o →
      c ∈ o.childAddrs → Reaches h a c

lemma heapGet_agree {h1 h2 : Heap} (hp : h1 <+: h2) {a : Nat} (ha : a < h1.length) :
    h2.get? a = h1.get? a := by
  obtain ⟨t, rfl⟩ := hp
  exact List.get?_append ha

lemma heap_extends {h1 h2 : Heap} (hlen : h1.length ≤ h2.length)
    (hag : ∀ b, b < h1.length → h2.get? b = h1.get? b) : h1 <+: h2 := by
  refine ⟨h2.drop h1.length, ?_⟩
  have htake : h2.take h1.length = h1 := by
    apply List.ext
    intro n
    by_cases hn : n < h1.length
    · rw [List.get?_take hn, hag n hn]
    · push_neg at hn
      have e1 : (h2.take h1.length).get? n = none :=
        List.get?_eq_none.mpr (by simp [List.length_take]; omega)
      have e2 : h1.get? n = none := List.get?_eq_none.mpr hn
      rw [e1, e2]
  have hsplit := List.take_append_drop h1.length h2
  rw [htake] at hsplit
  exact hsplit

lemma dictGet_mem_snd {α : Type} {d : List (String × α)} {k : String} {x : α}
    (h : dictGet d k = some x) : x ∈ d.map Prod.snd := by
  induction d with
  | nil => simp [dictGet] at h
  | cons p ps ih =>
    simp only [dictGet] at h
    split at h
    · cases h; simp
    · simp [ih h]

lemma snd_mem_dictInsert {α : Type} {items : List (String × α)} {k : String} {x c : α}
    (hc : c ∈ (dictInsert items k x).map Prod.snd) :
    c ∈ items.map Prod.snd ∨ c = x := by
  induction items with
  | nil =>
    simp [dictInsert] at hc
    exact Or.inr hc
  | cons p ps ih =>
    simp only [dictInsert] at hc
    split at hc
    · simp at hc
      rcases hc with rfl | hmem
      · exact Or.inr rfl
      · exact Or.inl (by simp [hmem])
    · simp at hc
      rcases hc with rfl | hmem
      · exact Or.inl (by simp)
      · rcases ih (by simpa using hmem) with hm | rfl
        · exact Or.inl (by simp [hm])
        · exact Or.inr rfl

lemma regionClosed_set {h : Heap} {n a : Nat} {o : HObj}
    (hc : RegionClosed h n) (ho : ∀ c ∈ o.childAddrs, n ≤ c) :
    RegionClosed (h.set a o) n := by
  intro b ob hb hget c hcb
  by_cases hab : a = b
  · subst hab
    by_cases hlt : a < h.length
    · rw [List.get?_set_eq] at hget
      cases hga : h.get? a with
      | none =>
        rw [hga] at hget
        cases hget
      | some oa =>
        rw [hga] at hget
        simp at hget
        subst hget
        exact ho c hcb
    · rw [List.set_eq_of_length_le (by omega)] at hget
      exact hc a ob hb hget c hcb
  · rw [List.get?_set_ne _ _ hab] at hget
    exact hc b ob hb hget c hcb

lemma closed_self (h : Heap) : ∀ a o, h.length ≤ a → h.get? a = some o →
    ∀ c ∈ o.childAddrs, h.length ≤ c := by
  intro a o ha hget
  have hnone : h.get? a = none := List.get?_eq_none.mpr ha
  rw [hnone] at hget
  cases hget

lemma closed_append_singleton_of_closed {h1 : Heap} {n : Nat} (hn : n ≤ h1.length)
    (hcl : ∀ a o, n ≤ a → h1.get? a = some o → ∀ c ∈ o.childAddrs, n ≤ c)
    {node : HObj} (hnode : ∀ c ∈ node.childAddrs, n ≤ c) :
    ∀ a o, n ≤ a → (h1 ++ [node]).get? a = some o → ∀ c ∈ o.childAddrs, n ≤ c := by
  intro a o ha hget c hc
  by_cases hlt : a < h1.length
  · rw [List.get?_append hlt] at hget
    exact hcl a o ha hget c hc
  · push_neg at hlt
    rcases Nat.eq_or_lt_of_le hlt with heq | hgt
    · subst heq
      rw [List.get?_concat_length] at hget
      cases hget
      exact hnode c hc
    · have hnone : (h1 ++ [node]).get? a = none :=
        List.get?_eq_none.mpr (by simp [List.length_append]; omega)
      rw [hnone] at hget
      cases hget

mutual

/-- `store` only appends: the old heap is untouched, the new root lies in
the fresh region, and the fresh region never points back into the old
heap. -/
theorem store_facts : ∀ (h : Heap) (v : PyVal),
    h <+: (store h v).1 ∧
    (h.length ≤ (store h v).2 ∧ (store h v).2 < (store h v).1.length) ∧
    (∀ a o, h.length ≤ a → (store h v).1.get? a = some o →
      ∀ c ∈ o.childAddrs, h.length ≤ c)
  | h, PyVal.pyInt n => by
    simp only [store]
    exact ⟨⟨[HObj.hInt n], rfl⟩, ⟨Nat.le_refl _, by simp⟩,
      closed_append_singleton_of_closed (Nat.le_refl _) (closed_self h)
        (by simp [HObj.childAddrs])⟩
  | h, PyVal.pyBool b => by
    simp only [store]
    exact ⟨⟨[HObj.hBool b], rfl⟩, ⟨Nat.le_refl _, by simp⟩,
      closed_append_singleton_of_closed (Nat.le_refl _) (closed_self h)
        (by simp [HObj.childAddrs])⟩
  | h, PyVal.pyStr s => by
    simp only [store]
    exact ⟨⟨[HObj.hStr s], rfl⟩, ⟨Nat.le_refl _, by simp⟩,
      closed_append_singleton_of_closed (Nat.le_refl _) (closed_self h)
        (by simp [HObj.childAddrs])⟩
  | h, PyVal.pyList es => by
    obtain ⟨hp, haddrs, hcl⟩ := storeList_facts h es
    simp only [store]
    refine ⟨hp.trans ⟨[HObj.hList (storeList h es).2], rfl⟩,
      ⟨hp.length_le, by simp⟩, ?_⟩
    exact closed_append_singleton_of_closed hp.length_le hcl
      (by intro c hc; simp only [HObj.childAddrs] at hc; exact (haddrs c hc).1)
  | h, PyVal.pyDict its => by
    obtain ⟨hp, haddrs, hcl⟩ := storeItems_facts h its
    simp only [store]
    refine ⟨hp.trans ⟨[HObj.hDict (storeItems h its).2], rfl⟩,
      ⟨hp.length_le, by simp⟩, ?_⟩
    refine closed_append_singleton_of_closed hp.length_le hcl ?_
    intro c hc
    simp only [HObj.childAddrs] at hc
    obtain ⟨p, hp', rfl⟩ := List.mem_map.mp hc
    exact (haddrs p hp').1

/-- `storeList` only appends; every allocated address is fresh. -/
theorem storeList_facts : ∀ (h : Heap) (vs : List PyVal),
    h <+: (storeList h vs).1 ∧
    (∀ x ∈ (storeList h vs).2, h.length ≤ x ∧ x < (storeList h vs).1.length) ∧
    (∀ a o, h.length ≤ a → (storeList h vs).1.get? a = some o →
      ∀ c ∈ o.childAddrs, h.length ≤ c)
  | h, [] => by
    simp only [storeList]
    exact ⟨⟨[], by simp⟩, by simp, closed_self h⟩
  | h, v :: vs => by
    obtain ⟨hp1, ⟨hroot1, hroot2⟩, hcl1⟩ := store_facts h v
    obtain ⟨hp2, haddrs2, hcl2⟩ := storeList_facts (store h v).1 vs
    simp only [storeList]
    refine ⟨hp1.trans hp2, ?_, ?_⟩
    · intro x hx
      simp only [List.mem_cons] at hx
      rcases hx with rfl | hx
      · exact ⟨hroot1, lt_of_lt_of_le hroot2 hp2.length_le⟩
      · obtain ⟨h1, h2⟩ := haddrs2 x hx
        exact ⟨le_trans hp1.length_le h1, h2⟩
    · intro a o ha hget c hc
      by_cases hlt : a < (store h v).1.length
      · rw [heapGet_agree hp2 hlt] at hget
        exact hcl1 a o ha hget c hc
      · push_neg at hlt
        exact le_trans hp1.length_le (hcl2 a o hlt hget c hc)

/-- `storeItems` only appends; every allocated value address is fresh. -/
theorem storeItems_facts : ∀ (h : Heap) (its : List (String × PyVal)),
    h <+: (storeItems h its).1 ∧
    (∀ p ∈ (storeItems h its).2, h.length ≤ p.2 ∧ p.2 < (storeItems h its).1.length) ∧
    (∀ a o, h.length ≤ a → (storeItems h its).1.get? a = some o →
      ∀ c ∈ o.childAddrs, h.length ≤ c)
  | h, [] => by
    simp only [storeItems]
    exact ⟨⟨[], by simp⟩, by simp, closed_self h⟩
  | h, (k, v) :: its => by
    obtain ⟨hp1, ⟨hroot1, hroot2⟩, hcl1⟩ := store_facts h v
    obtain ⟨hp2, haddrs2, hcl2⟩ := storeItems_facts (store h v).1 its
    simp only [storeItems]
    refine ⟨hp1.trans hp2, ?_, ?_⟩
    · intro p hp
      simp only [List.mem_cons] at hp
      rcases hp with rfl | hp
      · exact ⟨hroot1, lt_of_lt_of_le hroot2 hp2.length_le⟩
      · obtain ⟨h1, h2⟩ := haddrs2 p hp
        exact ⟨le_trans hp1.length_le h1, h2⟩
    · intro a o ha hget c hc
      by_cases hlt : a < (store h v).1.length
      · rw [heapGet_agree hp2 hlt] at hget
        exact hcl1 a o ha hget c hc
      · push_neg at hlt
        exact le_trans hp1.length_le (hcl2 a o hlt hget c hc)

end

lemma replaceEntryH_cons (h : Heap) (a : Nat) (k : String) (rest : List String) (va : Nat) :
    replaceEntryH h a (k :: rest) va =
      match h.get? a with
      | some (HObj.hDict items) =>
        match dictGet items k with
        | none => none
        | some sa =>
          match rest with
          | [] =>
            match h.get? sa with
            | some (HObj.hList []) => none
            | some (HObj.hList (_ :: tl)) =>
              some ((h.set sa (HObj.hList (va :: tl))).set a
                (HObj.hDict (dictInsert items k sa)))
            | some _ => some (h.set a (HObj.hDict (dictInsert items k va)))
            | none => none
          | _ :: _ =>
            match replaceEntryH h sa rest va with
            | some h'' => some (h''.set a (HObj.hDict (dictInsert items k sa)))
            | none => none
      | _ => none := rfl

lemma facts_set_dict {h : Heap} {n a : Nat} {items : List (String × Nat)}
    {k : String} {x : Nat}
    (hcl : RegionClosed h n) (ha : n ≤ a) (hx : n ≤ x)
    (hitems : ∀ c ∈ items.map Prod.snd, n ≤ c) :
    (∀ b, b < n → (h.set a (HObj.hDict (dictInsert items k x))).get? b = h.get? b) ∧
    (h.set a (HObj.hDict (dictInsert items k x))).length = h.length ∧
    RegionClosed (h.set a (HObj.hDict (dictInsert items k x))) n := by
  refine ⟨?_, List.length_set h a _, regionClosed_set hcl ?_⟩
  · intro b hb
    exact List.get?_set_ne _ _ (by omega)
  · intro c hcc
    simp only [HObj.childAddrs] at hcc
    rcases snd_mem_dictInsert hcc with hm | rfl
    · exact hitems c hm
    · exact hx

/-- The in-place recursive descent only writes at addresses in the fresh
region: every address below `n` reads the same object afterwards, the heap
size does not change, and the fresh region stays closed. -/
theorem replaceEntryH_facts :
    ∀ (keys : List String) (h : Heap) (a va : Nat) (h' : Heap) (n : Nat),
      RegionClosed h n → n ≤ a → n ≤ va →
      replaceEntryH h a keys va = some h' →
      (∀ b, b < n → h'.get? b = h.get? b) ∧ h'.length = h.length ∧
        RegionClosed h' n := by
  intro keys
  induction keys with
  | nil =>
    intro h a va h' n _ _ _ hrun
    simp [replaceEntryH] at hrun
  | cons k rest ih =>
    intro h a va h' n hc ha hva hrun
    rw [replaceEntryH_cons] at hrun
    split at hrun
    case h_2 => cases hrun
    case h_1 items heq =>
      split at hrun
      case h_1 => cases hrun
      case h_2 sa hdk =>
        have hitems : ∀ c ∈ items.map Prod.snd, n ≤ c := by
          intro c hm
          exact hc a _ ha heq c (by simpa [HObj.childAddrs] using hm)
        have hsa : n ≤ sa := hitems sa (dictGet_mem_snd hdk)
        split at hrun
        case h_1 =>
          split at hrun
          case h_1 => cases hrun
          case h_2 x tl hgs =>
            simp only [Option.some.injEq] at hrun
            subst hrun
            have htl : ∀ c ∈ x :: tl, n ≤ c :=
              fun c hcc => hc sa _ hsa hgs c (by simpa [HObj.childAddrs] using hcc)
            have hlist : ∀ c ∈ (HObj.hList (va :: tl)).childAddrs, n ≤ c := by
              intro c hcc
              simp only [HObj.childAddrs, List.mem_cons] at hcc
              rcases hcc with rfl | hcc
              · exact hva
              · exact htl c (List.mem_cons_of_mem _ hcc)
            have hc1 : RegionClosed (h.set sa (HObj.hList (va :: tl))) n :=
              regionClosed_set hc hlist
            obtain ⟨hag2, hlen2, hcl2⟩ := facts_set_dict hc1 ha hsa hitems
            refine ⟨?_, ?_, hcl2⟩
            · intro b hb
              rw [hag2 b hb]
              exact List.get?_set_ne _ _ (by omega)
            · rw [hlen2, List.length_set]
          case h_3 =>
            simp only [Option.some.injEq] at hrun
            subst hrun
            exact facts_set_dict hc ha hva hitems
          case h_4 => cases hrun
        case h_2 k2 rest2 heqrest =>
          split at hrun
          case h_1 hmid hrec =>
            simp only [Option.some.injEq] at hrun
            subst hrun
            obtain ⟨hagm, hlenm, hclm⟩ := ih h sa va hmid n hc hsa hva hrec
            obtain ⟨hag2, hlen2, hcl2⟩ := facts_set_dict hclm ha hsa hitems
            refine ⟨?_, ?_, hcl2⟩
            · intro b hb
              rw [hag2 b hb, hagm b hb]
            · rw [hlen2, hlenm]
          case h_2 => cases hrun

lemma inRange_of_inRangeB {h : Heap} (hb : inRangeB h = true) :
    ∀ a o, h.get? a = some o → ∀ c ∈ o.childAddrs, c < h.length := by
  intro a o hget c hc
  have ho : o ∈ h := List.get?_mem hget
  have h1 := List.all_eq_true.mp hb o ho
  have h2 := List.all_eq_true.mp h1 c hc
  exact of_decide_eq_true h2

lemma reaches_ge_of_regionClosed {h : Heap} {n r : Nat} (hcl : RegionClosed h n)
    (hr : n ≤ r) {b : Nat} (hb : Reaches h r b) : n ≤ b := by
  induction hb with
  | refl => exact hr
  | step hreach hget hchild ih => exact hcl _ _ ih hget _ hchild

lemma reaches_lt_of_agree {h h2 : Heap}
    (hag : ∀ b, b < h.length → h2.get? b = h.get? b)
    (hin : ∀ a o, h.get? a = some o → ∀ c ∈ o.childAddrs, c < h.length)
    {r : Nat} (hr : r < h.length) {b : Nat} (hb : Reaches h2 r b) : b < h.length := by
  induction hb with
  | refl => exact hr
  | step hreach hget hchild ih =>
    rw [hag _ ih] at hget
    exact hin _ _ hget _ hchild

/-- Claim C8: the base defaults mapping is never mutated by configuration
resolution, and the resolved configuration shares no structure with it.  In
the heap model: whenever the deep-copy-and-replace core of `configuration`
runs on a well-formed heap, (i) the original heap is a prefix of the final
heap, so every pre-existing object — in particular the whole defaults
structure rooted at `root` — is unchanged; (ii) the defaults structure
still lies entirely in the old region; (iii) the structure of the returned
configuration lies entirely in the fresh region, so the two reachable
address sets are disjoint (no aliasing): the result is a fully independent
deep copy. -/
theorem configuration_defaults_unchanged_no_aliasing
    (h : Heap) (root : Nat) (keys : List String) (value : PyVal)
    (h2 : Heap) (res : Nat)
    (hwf : inRangeB h = true) (hroot : root < h.length)
    (hrun : configurationH h root keys value = some (h2, res)) :
    h <+: h2 ∧
    (∀ b, Reaches h2 root b → b < h.length) ∧
    (∀ b, Reaches h2 res b → h.length ≤ b) := by
  unfold configurationH at hrun
  cases hload : load h root with
  | none =>
    rw [show deepcopyH h root = none by simp [deepcopyH, hload]] at hrun
    cases hrun
  | some t =>
    rw [show deepcopyH h root = some (store h t) by simp [deepcopyH, hload]] at hrun
    simp only [] at hrun
    cases hrep : replaceEntryH (store (store h t).1 value).1 (store h t).2 keys
        (store (store h t).1 value).2 with
    | none => rw [hrep] at hrun; cases hrun
    | some hfin =>
      rw [hrep] at hrun
      simp only [Option.some.injEq, Prod.mk.injEq] at hrun
      obtain ⟨rfl, rfl⟩ := hrun
      obtain ⟨hp1, ⟨hout1, hout2⟩, hcl1⟩ := store_facts h t
      obtain ⟨hp2, ⟨hva1, _⟩, hcl2⟩ := store_facts (store h t).1 value
      have hlen1 : h.length ≤ (store h t).1.length := hp1.length_le
      have hcA : RegionClosed (store (store h t).1 value).1 h.length := by
        intro a o ha hget c hc
        by_cases hlt : a < (store h t).1.length
        · rw [heapGet_agree hp2 hlt] at hget
          exact hcl1 a o ha hget c hc
        · push_neg at hlt
          exact le_trans hlen1 (hcl2 a o hlt hget c hc)
      obtain ⟨hag3, hlen3, hcl3⟩ := replaceEntryH_facts keys
        (store (store h t).1 value).1 (store h t).2
        (store (store h t).1 value).2 hfin h.length hcA hout1
        (le_trans hlen1 hva1) hrep
      have hagAll : ∀ b, b < h.length → hfin.get? b = h.get? b := by
        intro b hb
        rw [hag3 b hb, heapGet_agree hp2 (lt_of_lt_of_le hb hlen1),
          heapGet_agree hp1 hb]
      have hlenAll : h.length ≤ hfin.length := by
        rw [hlen3]
        exact le_trans hlen1 hp2.length_le
      refine ⟨heap_extends hlenAll hagAll, ?_, ?_⟩
      · intro b hb
        exact reaches_lt_of_agree hagAll (inRange_of_inRangeB hwf) hroot hb
      · intro b hb
        exact reaches_ge_of_regionClosed hcl3 hout1 hb

/-- The heap of the scenario defaults `{"a": {"b": [1, 2]}}`; the defaults
structure is rooted at address 4. -/
def exHeap : Heap := [HObj.hInt 1, HObj.hInt 2, HObj.hList [0, 1],
  HObj.hDict [("b", 2)], HObj.hDict [("a", 3)]]

/-- Final heap of running the resolution core on `exHeap`: the original
five objects are untouched; the copy occupies addresses 5-9, with the list
object at 7 mutated in place to hold the injected value's address 10. -/
def exHeap2 : Heap := [HObj.hInt 1, HObj.hInt 2, HObj.hList [0, 1],
  HObj.hDict [("b", 2)], HObj.hDict [("a", 3)], HObj.hInt 1, HObj.hInt 2,
  HObj.hList [10, 6], HObj.hDict [("b", 7)], HObj.hDict [("a", 8)], HObj.hInt 10]

/-- Witness for C8 at the concrete scenario heap. -/
theorem configuration_defaults_unchanged_no_aliasing_witness :
    inRangeB exHeap = true ∧ 4 < exHeap.length ∧
    configurationH exHeap 4 ["a", "b"] (PyVal.pyInt 10) = some (exHeap2, 9) ∧
    (exHeap <+: exHeap2 ∧
      (∀ b, Reaches exHeap2 4 b → b < exHeap.length) ∧
      (∀ b, Reaches exHeap2 9 b → exHeap.length ≤ b)) :=
  ⟨by decide, by decide, by decide,
    configuration_defaults_unchanged_no_aliasing exHeap 4 ["a", "b"]
      (PyVal.pyInt 10) exHeap2 9 (by decide) (by decide) (by decide)⟩
